import Mathlib

/-!
Verification of the Library Reconciliation Engine: a shallow embedding, over
`List Char`, of the matching, tag-merge, path-planning and pruning logic of
the audiobook-organizing scripts, together with proofs of the behavioural
properties stated in the design document.

Strings are modelled as `List Char` (a Lean `String` literal `s` is injected
via `s.data`).  The character classes of the regexes involved are modelled
over their ASCII behaviour, which is what all of the design's examples use.
-/

namespace LibRec

/-- ASCII lowercasing, modelling `str.lower` on the ASCII range:
uppercase letters (codes 65..90) are shifted by 32, all else is unchanged. -/
def lowerChar (c : Char) : Char :=
  if 65 ≤ c.toNat ∧ c.toNat ≤ 90 then Char.ofNat (c.toNat + 32) else c

/-- ASCII model of the regex class `\w`: letters, digits and underscore. -/
def isWordB (c : Char) : Bool :=
  c.isAlphanum || c = '_'

/-- ASCII model of the regex class `\s` and of the default separator set of
`str.split`: space, tab, newline, carriage return, vertical tab, form feed. -/
def isSpaceB (c : Char) : Bool :=
  c = ' ' || c = '\t' || c = '\n' || c = '\r' || c = '\x0b' || c = '\x0c'

/-- The character class kept by `re.sub(r'[^\w\s]', '', s)`: word or space. -/
def keepB (c : Char) : Bool :=
  isWordB c || isSpaceB c

/-- Fueled worker for `str.split()` with no argument: skip separator runs,
otherwise emit the maximal run of non-separator characters and continue.
The fuel only serves structural recursion; `pySplit` supplies enough. -/
def pySplitF : Nat → List Char → List (List Char)
  | 0, _ => []
  | _ + 1, [] => []
  | fuel + 1, c :: cs =>
    if isSpaceB c then pySplitF fuel cs
    else (c :: cs.takeWhile (fun d => !isSpaceB d)) ::
      pySplitF fuel (cs.dropWhile (fun d => !isSpaceB d))

/-- `str.split()`: split on whitespace runs, dropping empty pieces. -/
def pySplit (l : List Char) : List (List Char) :=
  pySplitF l.length l

/-- `' '.join(ws)`: concatenate the pieces with a single space between. -/
def joinWords : List (List Char) → List Char
  | [] => []
  | [w] => w
  | w :: ws => w ++ ' ' :: joinWords ws

/-- `clean_string` (liberate-update-metadata.py, lines 11-19): empty guard,
lowercase, delete every character that is neither word nor whitespace,
then collapse whitespace runs to single spaces and trim the ends. -/
def clean_string (s : List Char) : List Char :=
  if s.isEmpty then []
  else joinWords (pySplit ((s.map lowerChar).filter keepB))

/-- `clean_string` on an optional string: the guard `if not s` also maps
a missing (None) argument to the empty string. -/
def clean_string_opt : Option (List Char) → List Char
  | none => []
  | some s => clean_string s

/- Facts about `lowerChar`. -/

theorem lowerChar_toNat_of_upper {n : Nat} (h1 : 65 ≤ n) (h2 : n ≤ 90) :
    (Char.ofNat (n + 32)).toNat = n + 32 := by
  interval_cases n <;> decide

theorem lowerChar_idem (c : Char) : lowerChar (lowerChar c) = lowerChar c := by
  unfold lowerChar
  by_cases h : 65 ≤ c.toNat ∧ c.toNat ≤ 90
  · rw [if_pos h]
    have ht : (Char.ofNat (c.toNat + 32)).toNat = c.toNat + 32 :=
      lowerChar_toNat_of_upper h.1 h.2
    rw [if_neg]
    rw [ht]
    omega
  · rw [if_neg h, if_neg h]

/- Facts about `pySplit`: fuel irrelevance, shape of the produced words,
and the split/join round trip. -/

theorem length_dropWhile_le (p : Char → Bool) (l : List Char) :
    (l.dropWhile p).length ≤ l.length :=
  List.Sublist.length_le (List.dropWhile_sublist p)

theorem pySplitF_fuel_irrel :
    ∀ f1 f2 l, l.length ≤ f1 → l.length ≤ f2 →
      pySplitF f1 l = pySplitF f2 l := by
  intro f1
  induction f1 with
  | zero =>
    intro f2 l h1 _
    have : l = [] := List.length_eq_zero.mp (Nat.le_zero.mp h1)
    subst this
    cases f2 <;> rfl
  | succ f ih =>
    intro f2 l h1 h2
    cases l with
    | nil => cases f2 <;> rfl
    | cons c cs =>
      cases f2 with
      | zero => exact absurd h2 (by simp)
      | succ g =>
        simp only [pySplitF]
        by_cases hc : isSpaceB c
        · rw [if_pos hc, if_pos hc]
          exact ih g cs (by simpa using Nat.le_of_succ_le_succ h1)
            (by simpa using Nat.le_of_succ_le_succ h2)
        · rw [if_neg hc, if_neg hc]
          have hd : (cs.dropWhile (fun d => !isSpaceB d)).length ≤ cs.length :=
            length_dropWhile_le _ cs
          have h1' : (cs.dropWhile (fun d => !isSpaceB d)).length ≤ f :=
            le_trans hd (by simpa using Nat.le_of_succ_le_succ h1)
          have h2' : (cs.dropWhile (fun d => !isSpaceB d)).length ≤ g :=
            le_trans hd (by simpa using Nat.le_of_succ_le_succ h2)
          rw [ih g _ h1' h2']

theorem pySplit_nil : pySplit [] = [] := rfl

theorem pySplit_cons_space {c : Char} (h : isSpaceB c) (cs : List Char) :
    pySplit (c :: cs) = pySplit cs := by
  unfold pySplit
  simp only [List.length_cons, pySplitF, if_pos h]

theorem pySplit_cons_word {c : Char} (h : ¬ isSpaceB c) (cs : List Char) :
    pySplit (c :: cs) =
      (c :: cs.takeWhile (fun d => !isSpaceB d)) ::
        pySplit (cs.dropWhile (fun d => !isSpaceB d)) := by
  unfold pySplit
  simp only [List.length_cons, pySplitF, if_neg h]
  have hd : (cs.dropWhile (fun d => !isSpaceB d)).length ≤ cs.length :=
    length_dropWhile_le _ cs
  rw [pySplitF_fuel_irrel cs.length (cs.dropWhile (fun d => !isSpaceB d)).length
    (cs.dropWhile (fun d => !isSpaceB d)) hd le_rfl]

theorem takeWhile_all {p : Char → Bool} :
    ∀ {w : List Char}, (∀ c ∈ w, p c = true) → w.takeWhile p = w := by
  intro w
  induction w with
  | nil => intro _; rfl
  | cons c cs ih =>
    intro h
    simp [List.takeWhile_cons, h c (List.mem_cons_self c cs),
      ih fun d hd => h d (List.mem_cons_of_mem c hd)]

theorem dropWhile_all {p : Char → Bool} :
    ∀ {w : List Char}, (∀ c ∈ w, p c = true) → w.dropWhile p = [] := by
  intro w
  induction w with
  | nil => intro _; rfl
  | cons c cs ih =>
    intro h
    simp only [List.dropWhile_cons, h c (List.mem_cons_self c cs)]
    exact ih fun d hd => h d (List.mem_cons_of_mem c hd)

theorem takeWhile_append_stop {p : Char → Bool} {d : Char} (hd : p d = false) :
    ∀ (w t : List Char), (∀ c ∈ w, p c = true) →
      (w ++ d :: t).takeWhile p = w := by
  intro w
  induction w with
  | nil => intro t _; simp [List.takeWhile_cons, hd]
  | cons c cs ih =>
    intro t h
    simp [List.cons_append, List.takeWhile_cons,
      h c (List.mem_cons_self c cs),
      ih t fun e he => h e (List.mem_cons_of_mem c he)]

theorem dropWhile_append_stop {p : Char → Bool} {d : Char} (hd : p d = false) :
    ∀ (w t : List Char), (∀ c ∈ w, p c = true) →
      (w ++ d :: t).dropWhile p = d :: t := by
  intro w
  induction w with
  | nil => intro t _; simp [List.dropWhile_cons, hd]
  | cons c cs ih =>
    intro t h
    simp only [List.cons_append, List.dropWhile_cons,
      h c (List.mem_cons_self c cs)]
    exact ih t fun e he => h e (List.mem_cons_of_mem c he)

/-- Every word produced by `pySplit` is nonempty, free of separator
characters, and drawn from the characters of the input. -/
theorem pySplit_words :
    ∀ (n : Nat) (l : List Char), l.length ≤ n → ∀ w ∈ pySplit l,
      w ≠ [] ∧ (∀ c ∈ w, isSpaceB c = false) ∧ (∀ c ∈ w, c ∈ l) := by
  intro n
  induction n with
  | zero =>
    intro l hl
    have : l = [] := List.length_eq_zero.mp (Nat.le_zero.mp hl)
    subst this
    intro w hw
    simp [pySplit_nil] at hw
  | succ n ih =>
    intro l hl w hw
    cases l with
    | nil => simp [pySplit_nil] at hw
    | cons c cs =>
      by_cases hc : isSpaceB c
      · rw [pySplit_cons_space hc] at hw
        have := ih cs (by simpa using Nat.le_of_succ_le_succ hl) w hw
        exact ⟨this.1, this.2.1, fun d hd => List.mem_cons_of_mem c (this.2.2 d hd)⟩
      · rw [pySplit_cons_word hc] at hw
        rcases List.mem_cons.mp hw with hw | hw
        · subst hw
          refine ⟨List.cons_ne_nil _ _, ?_, ?_⟩
          · intro d hd
            rcases List.mem_cons.mp hd with hd | hd
            · subst hd; exact Bool.eq_false_iff.mpr hc
            · have := List.mem_takeWhile_imp hd
              simpa using this
          · intro d hd
            rcases List.mem_cons.mp hd with hd | hd
            · subst hd; exact List.mem_cons_self _ _
            · exact List.mem_cons_of_mem c
                ((List.takeWhile_sublist _).mem hd)
        · have hlen : (cs.dropWhile (fun d => !isSpaceB d)).length ≤ n :=
            le_trans (length_dropWhile_le _ cs)
              (by simpa using Nat.le_of_succ_le_succ hl)
          have := ih _ hlen w hw
          exact ⟨this.1, this.2.1, fun d hd =>
            List.mem_cons_of_mem c ((List.dropWhile_sublist _).mem (this.2.2 d hd))⟩

theorem joinWords_cons {w : List Char} {ws : List (List Char)} (h : ws ≠ []) :
    joinWords (w :: ws) = w ++ ' ' :: joinWords ws := by
  cases ws with
  | nil => exact absurd rfl h
  | cons w' t => rfl

theorem mem_joinWords :
    ∀ (ws : List (List Char)) (c : Char), c ∈ joinWords ws →
      c = ' ' ∨ ∃ w ∈ ws, c ∈ w := by
  intro ws
  induction ws with
  | nil => intro c hc; simp [joinWords] at hc
  | cons w t ih =>
    intro c hc
    cases t with
    | nil =>
      simp only [joinWords] at hc
      exact Or.inr ⟨w, List.mem_cons_self _ _, hc⟩
    | cons w' t' =>
      rw [joinWords_cons (List.cons_ne_nil _ _)] at hc
      rcases List.mem_append.mp hc with hc | hc
      · exact Or.inr ⟨w, List.mem_cons_self _ _, hc⟩
      · rcases List.mem_cons.mp hc with hc | hc
        · exact Or.inl hc
        · rcases ih c hc with h | ⟨u, hu, hcu⟩
          · exact Or.inl h
          · exact Or.inr ⟨u, List.mem_cons_of_mem _ hu, hcu⟩

/-- A single nonempty, separator-free word splits to itself. -/
theorem pySplit_single {w : List Char} (hne : w ≠ [])
    (hns : ∀ c ∈ w, isSpaceB c = false) : pySplit w = [w] := by
  cases w with
  | nil => exact absurd rfl hne
  | cons c cs =>
    have hc : ¬ isSpaceB c := by
      simpa using hns c (List.mem_cons_self c cs)
    rw [pySplit_cons_word hc]
    have hall : ∀ d ∈ cs, (fun d => !isSpaceB d) d = true := by
      intro d hd
      simpa using hns d (List.mem_cons_of_mem c hd)
    rw [takeWhile_all hall, dropWhile_all hall, pySplit_nil]

/-- The split/join round trip: splitting a join of nonempty, separator-free
words recovers exactly those words. -/
theorem pySplit_joinWords :
    ∀ (ws : List (List Char)),
      (∀ w ∈ ws, w ≠ [] ∧ ∀ c ∈ w, isSpaceB c = false) →
      pySplit (joinWords ws) = ws := by
  intro ws
  induction ws with
  | nil => intro _; rfl
  | cons w t ih =>
    intro h
    have hw := h w (List.mem_cons_self w t)
    cases t with
    | nil =>
      show pySplit (joinWords [w]) = [w]
      simpa [joinWords] using pySplit_single hw.1 hw.2
    | cons w' t' =>
      rw [joinWords_cons (List.cons_ne_nil _ _)]
      cases w with
      | nil => exact absurd rfl hw.1
      | cons c cs =>
        have hc : ¬ isSpaceB c := by
          simpa using hw.2 c (List.mem_cons_self c cs)
        have hall : ∀ d ∈ cs, (fun d => !isSpaceB d) d = true := by
          intro d hd
          simpa using hw.2 d (List.mem_cons_of_mem c hd)
        have hsp : (fun d => !isSpaceB d) ' ' = false := by decide
        rw [List.cons_append, pySplit_cons_word hc,
          takeWhile_append_stop hsp cs _ hall,
          dropWhile_append_stop hsp cs _ hall,
          pySplit_cons_space (by decide),
          ih fun u hu => h u (List.mem_cons_of_mem _ hu)]

theorem map_eq_self_of_fixed {f : Char → Char} :
    ∀ {l : List Char}, (∀ c ∈ l, f c = c) → l.map f = l := by
  intro l
  induction l with
  | nil => intro _; rfl
  | cons c cs ih =>
    intro h
    simp only [List.map_cons, h c (List.mem_cons_self c cs)]
    rw [ih fun d hd => h d (List.mem_cons_of_mem c hd)]

/-- Every character of a cleaned string is fixed by lowercasing and kept by
the word-or-space filter. -/
theorem clean_string_char_facts {s : List Char} {c : Char}
    (hc : c ∈ clean_string s) : lowerChar c = c ∧ keepB c = true := by
  unfold clean_string at hc
  by_cases h0 : s.isEmpty
  · rw [if_pos h0] at hc; simp at hc
  · rw [if_neg h0] at hc
    rcases mem_joinWords _ c hc with h | ⟨w, hw, hcw⟩
    · subst h; exact ⟨by decide, by decide⟩
    · have hword := pySplit_words _ _ le_rfl w hw
      have hmem : c ∈ (s.map lowerChar).filter keepB := hword.2.2 c hcw
      constructor
      · have : c ∈ s.map lowerChar := List.mem_of_mem_filter hmem
        rcases List.mem_map.mp this with ⟨a, _, ha⟩
        rw [← ha]
        exact lowerChar_idem a
      · exact List.of_mem_filter hmem

/-- Idempotence of `clean_string`: cleaning a cleaned string changes
nothing. -/
theorem clean_string_idem (s : List Char) :
    clean_string (clean_string s) = clean_string s := by
  by_cases h : clean_string s = []
  · rw [h]; rfl
  · have h1 : ¬ (clean_string s).isEmpty := by
      simpa [List.isEmpty_iff] using h
    have hmap : (clean_string s).map lowerChar = clean_string s :=
      map_eq_self_of_fixed fun c hc => (clean_string_char_facts hc).1
    have hfil : (clean_string s).filter keepB = clean_string s :=
      List.filter_eq_self.mpr fun c hc => (clean_string_char_facts hc).2
    have h0 : ¬ s.isEmpty := by
      intro hs
      apply h
      rw [clean_string, if_pos hs]
    conv_lhs => rw [clean_string, if_neg h1, hmap, hfil]
    have hcs : clean_string s =
        joinWords (pySplit ((s.map lowerChar).filter keepB)) := by
      rw [clean_string, if_neg h0]
    rw [hcs,
      pySplit_joinWords _ (fun w hw =>
        ⟨(pySplit_words _ _ le_rfl w hw).1,
         (pySplit_words _ _ le_rfl w hw).2.1⟩)]

/-! ## Catalog records and the match resolver -/

/-- Python's `in` on strings: contiguous-substring occurrence. -/
def isSubOf (pat l : List Char) : Bool :=
  decide (List.IsInfix pat l)

/-- One catalog record as stored in the `audiobooks` dictionary
(liberate-update-metadata.py, lines 68-74). -/
structure Book where
  title : List Char
  author : List Char
  narrator : List Char
  series : List Char
  series_order : List Char
deriving DecidableEq, Repr

/-- One raw CSV row with the required catalog columns. -/
structure CsvRow where
  colTitle : List Char
  colAuthors : List Char
  colNarrators : List Char
  colSeriesNames : List Char
  colSeriesOrder : List Char
deriving DecidableEq, Repr

/-- The record stored for a row (liberate-update-metadata.py, lines 68-74). -/
def mkBook (row : CsvRow) : Book :=
  ⟨row.colTitle, row.colAuthors, row.colNarrators, row.colSeriesNames,
    row.colSeriesOrder⟩

/-- The catalog index: `audiobooks[clean_string(row['Title'])] = {...}` row by
row, later rows overwriting earlier ones (lines 62-74).  The dictionary is
modelled as a lookup function. -/
def buildIndex (rows : List CsvRow) : List Char → Option Book :=
  rows.foldl
    (fun m row => fun k =>
      if k = clean_string row.colTitle then some (mkBook row) else m k)
    (fun _ => none)

/-- `find_matching_audiobook` (lines 21-50): walk the catalog items in order
and return the first entry that satisfies one of the three strategies; the
filename and parent-directory components of the path are the inputs.  The
matched (key, record) dictionary item is returned. -/
def find_matching_audiobook (filename parentDir : List Char) :
    List (List Char × Book) → Option (List Char × Book)
  | [] => none
  | (key, book) :: rest =>
    let cf := clean_string filename
    let cp := clean_string parentDir
    let ct := clean_string book.title
    let ca := clean_string book.author
    if isSubOf ct cf && isSubOf ca cp then some (key, book)
    else if isSubOf ct cf then some (key, book)
    else if isSubOf ca cp && isSubOf ct cf then some (key, book)
    else find_matching_audiobook filename parentDir rest

/-- Strategy 2's test: the cleaned title occurs inside the cleaned
filename. -/
def titleInFilename (filename : List Char) (book : Book) : Bool :=
  isSubOf (clean_string book.title) (clean_string filename)

/-- The author half of strategies 1 and 3: the cleaned author occurs inside
the cleaned parent-directory name. -/
def authorInParent (parentDir : List Char) (book : Book) : Bool :=
  isSubOf (clean_string book.author) (clean_string parentDir)

/-- A resolver built from the specification's words alone: return the first
catalog entry, in iteration order, whose cleaned title is a substring of the
cleaned filename; the author and parent directory are never consulted. -/
def titleOnlyResolve (filename : List Char) (audiobooks : List (List Char × Book)) :
    Option (List Char × Book) :=
  audiobooks.find? (fun e => titleInFilename filename e.2)

/-! ## Metadata written by process_audiobooks (liberate script) -/

/-- A dict-like tag container for the EasyID3/ID3 fields the liberate script
writes: a lookup from field name to text. -/
def EasyTags : Type := String → Option (List Char)

/-- Field assignment `audio[key] = value`. -/
def setField (t : EasyTags) (k : String) (v : List Char) : EasyTags :=
  fun k' => if k' = k then some v else t k'

/-- The metadata updates of process_audiobooks (lines 132-151), in program
order: the six EasyID3 assignments, the series override of `album`, then the
TMED and TCMP frames added through the full ID3 container (modelled in the
same map under their frame names). -/
def update_basic_metadata (book : Book) (audio : EasyTags) : EasyTags :=
  let a1 := setField audio "title" book.title
  let a2 := setField a1 "artist" book.author
  let a3 := setField a2 "albumartist" book.narrator
  let a4 := setField a3 "album" book.title
  let a5 := setField a4 "genre" "Audiobook".data
  let a6 := setField a5 "composer" book.narrator
  let a7 :=
    if book.series ≠ [] then
      setField a6 "album" (book.series ++ " - ".data ++ book.title)
    else a6
  let a8 := setField a7 "TMED" "Audiobook".data
  setField a8 "TCMP" "1".data

/-- The empty tag container. -/
def emptyTags : EasyTags := fun _ => none

/-! ## Tag fusion (audiobooks-update-metadata-from-mp3.py, lines 38-69) -/

/-- One ID3 frame: its dictionary hash key and its (opaque) payload. -/
structure Frame where
  key : List Char
  payload : List Char
deriving DecidableEq, Repr

/-- `startswith`: the first list is an initial segment of the second. -/
def keyStartsWith (p k : List Char) : Bool :=
  decide (k.take p.length = p)

/-- A chapter-marker or table-of-contents frame key. -/
def chapOrToc (k : List Char) : Bool :=
  keyStartsWith "CHAP".data k || keyStartsWith "CTOC".data k

/-- `ID3.add`: insert a frame, replacing any frame with the same hash key
(insertion-ordered dictionary semantics). -/
def addFrame (tags : List Frame) (fr : Frame) : List Frame :=
  if tags.any (fun g => g.key == fr.key) then
    tags.map (fun g => if g.key == fr.key then fr else g)
  else tags ++ [fr]

/-- `audio.get(key, [default])[0]`: the payload of the frame under `k`, or
the default when absent. -/
def getText (tags : List Frame) (k dflt : List Char) : List Char :=
  match tags.find? (fun fr => fr.key == k) with
  | some fr => fr.payload
  | none => dflt

/-- `update_audiobook_metadata` (lines 38-69): read title/artist/album with
their defaults, start a fresh container, copy over exactly the frames whose
key begins with CHAP or CTOC, then add the six required frames. -/
def update_audiobook_metadata (existing : List Frame) : List Frame :=
  let title := getText existing "TIT2".data "Unknown Title".data
  let artist := getText existing "TPE1".data "Unknown Artist".data
  let album := getText existing "TALB".data title
  let chapTags := existing.foldl
    (fun acc fr => if chapOrToc fr.key then addFrame acc fr else acc) []
  let t1 := addFrame chapTags ⟨"TIT2".data, title⟩
  let t2 := addFrame t1 ⟨"TPE1".data, artist⟩
  let t3 := addFrame t2 ⟨"TALB".data, album⟩
  let t4 := addFrame t3 ⟨"TCON".data, "Audiobook".data⟩
  let t5 := addFrame t4 ⟨"TMED".data, "Audiobook".data⟩
  addFrame t5 ⟨"TCMP".data, "1".data⟩

/-- The six frames `update_audiobook_metadata` writes, in order. -/
def newFrames (existing : List Frame) : List Frame :=
  let title := getText existing "TIT2".data "Unknown Title".data
  let artist := getText existing "TPE1".data "Unknown Artist".data
  let album := getText existing "TALB".data title
  [⟨"TIT2".data, title⟩, ⟨"TPE1".data, artist⟩, ⟨"TALB".data, album⟩,
   ⟨"TCON".data, "Audiobook".data⟩, ⟨"TMED".data, "Audiobook".data⟩,
   ⟨"TCMP".data, "1".data⟩]

/-! ## Collision-safe path planning (organize_file, lines 108-119) -/

/-- The decimal digits of a number, as written by `str(n)`. -/
def natChars (n : Nat) : List Char :=
  if n = 0 then ['0'] else (Nat.digits 10 n).reverse.map Nat.digitChar

/-- The candidate name `f"{base}_{counter}{ext}"`. -/
def candName (base ext : List Char) (counter : Nat) : List Char :=
  base ++ '_' :: (natChars counter ++ ext)

/-- The `while os.path.exists(new_filepath)` loop: starting from `counter`,
return the first candidate name not present in the directory.  The fuel
bounds the scan; `organizePlan` supplies one more than the number of
directory entries, which is always enough. -/
def findFree (existing : List (List Char)) (base ext : List Char) :
    Nat → Nat → List Char
  | 0, counter => candName base ext counter
  | fuel + 1, counter =>
    if candName base ext counter ∈ existing then
      findFree existing base ext fuel (counter + 1)
    else candName base ext counter

/-- The destination-name choice of organize_file: the original filename if it
is unused, otherwise the first free suffixed name `base_1`, `base_2`, …  The
directory content is the list `existing`. -/
def organizePlan (existing : List (List Char)) (base ext : List Char) :
    List Char :=
  if base ++ ext ∈ existing then
    findFree existing base ext (existing.length + 1) 1
  else base ++ ext

/-- Copying `n` source files that share one original filename into the same
directory: each copy picks its name with `organizePlan` against the current
directory content and then creates the file there. -/
def placeCopies (base ext : List Char) : List (List Char) → Nat → List (List Char)
  | _, 0 => []
  | existing, n + 1 =>
    let p := organizePlan existing base ext
    p :: placeCopies base ext (p :: existing) n

/-! ## Author variants and pruning (delete-audiobooks-in-music-path.py) -/

/-- `str.strip()`: remove whitespace from both ends. -/
def pyStrip (l : List Char) : List Char :=
  ((l.dropWhile isSpaceB).reverse.dropWhile isSpaceB).reverse

/-- `str.split(',')`: split at every comma, keeping empty pieces. -/
def splitComma : List Char → List (List Char)
  | [] => [[]]
  | c :: cs =>
    if c = ',' then [] :: splitComma cs
    else
      match splitComma cs with
      | [] => [[c]]
      | w :: rest => (c :: w) :: rest

/-- The four variants inserted for one trimmed author name
(load_authors_from_csv, lines 29-33). -/
def authorVariants (a : List Char) : List (List Char) :=
  [a, a.map lowerChar, a.filter (fun x => x != '.'), a.filter (fun x => x != ',')]

/-- `load_authors_from_csv` (lines 22-33): for every row's Authors field,
split on commas, trim, and for every non-empty name add its four variants to
the set (modelled as a membership list). -/
def load_authors (rows : List (List Char)) : List (List Char) :=
  rows.foldl
    (fun acc row =>
      (splitComma row).foldl
        (fun acc2 a =>
          let c := pyStrip a
          if c = [] then acc2 else acc2 ++ authorVariants c)
        acc)
    []

/-- The five folder-name variations tried by should_remove_folder
(lines 41-55). -/
def folderVariations (folderName : List Char) : List (List Char) :=
  let fc := pyStrip folderName
  let fl := fc.map lowerChar
  [fc, fl, fc.filter (fun x => x != '.'), fc.filter (fun x => x != ','),
   fl.filter keepB]

/-- `should_remove_folder`: some variation is exactly a member of the author
set. -/
def should_remove_folder (authors : List (List Char)) (folderName : List Char) :
    Bool :=
  (folderVariations folderName).any (fun v => authors.contains v)

/-- The bookkeeping lists held by MusicLibraryCleaner. -/
structure PruneState where
  removed : List (List Char)
  skipped : List (List Char)
deriving DecidableEq, Repr

/-- `remove_folders` (lines 78-91): walk the candidate list; in a dry run
only record; otherwise delete (which may fail, recording the folder as
skipped instead).  `fail` tells which deletions raise; the returned list is
the folders actually deleted. -/
def remove_folders (fail : List Char → Bool) (dryRun : Bool) :
    List (List Char) → PruneState → PruneState × List (List Char)
  | [], st => (st, [])
  | f :: rest, st =>
    if dryRun then
      remove_folders fail dryRun rest { st with removed := st.removed ++ [f] }
    else if fail f then
      remove_folders fail dryRun rest { st with skipped := st.skipped ++ [f] }
    else
      let r := remove_folders fail dryRun rest
        { st with removed := st.removed ++ [f] }
      (r.1, f :: r.2)

/-- The two-phase flow of main (lines 135-158): scan once, dry run from a
fresh state, and on confirmation reset both lists and run the destructive
pass over the same candidates.  Returns the dry-run state and, when
confirmed, the destructive-phase state with its deleted folders. -/
def pruneMain (authors : List (List Char)) (musicDirs : List (List Char))
    (fail : List Char → Bool) (confirm : Bool) :
    PruneState × Option (PruneState × List (List Char)) :=
  let cands := musicDirs.filter (fun d => should_remove_folder authors d)
  let dry := remove_folders fail true cands ⟨[], []⟩
  if confirm then
    let real := remove_folders fail false cands ⟨[], []⟩
    (dry.1, some real)
  else (dry.1, none)

/-! ## Per-file error containment (process_audiobooks main loop) -/

/-- Outcome of handling one file inside the walker's try block: the book was
matched and every step succeeded, no catalog match was found, or some step
raised. -/
inductive FileOutcome where
  | success
  | noMatch
  | failure
deriving DecidableEq, Repr

/-- The walker loop of process_audiobooks (lines 90-161): per file, a
success appends to the processed list, while a missing match or any raised
error appends to the skipped list and the loop continues. -/
def processFiles (outcome : α → FileOutcome) : List α → List α × List α
  | [] => ([], [])
  | f :: fs =>
    let rest := processFiles outcome fs
    match outcome f with
    | FileOutcome.success => (f :: rest.1, rest.2)
    | FileOutcome.noMatch => (rest.1, f :: rest.2)
    | FileOutcome.failure => (rest.1, f :: rest.2)

/-! ## Theorems: the match resolver (claims C1 and C10) -/

/-- The disjunction of the three documented matching conditions for one
record, against a given filename and parent-directory name. -/
def matchConds (filename parentDir : List Char) (book : Book) : Bool :=
  (titleInFilename filename book && authorInParent parentDir book)
    || titleInFilename filename book
    || (authorInParent parentDir book && titleInFilename filename book)

/-- C10: `find_matching_audiobook` is equivalent to the resolver that tests
only strategy 2: it returns exactly the first catalog entry, in iteration
order, whose cleaned title occurs inside the cleaned filename; the
author-based strategies never change the result. -/
theorem find_matching_eq_titleOnly (filename parentDir : List Char)
    (audiobooks : List (List Char × Book)) :
    find_matching_audiobook filename parentDir audiobooks =
      titleOnlyResolve filename audiobooks := by
  induction audiobooks with
  | nil => rfl
  | cons e rest ih =>
    obtain ⟨key, book⟩ := e
    by_cases h2 : titleInFilename filename book
    · have hfind : titleOnlyResolve filename ((key, book) :: rest) =
          some (key, book) :=
        List.find?_cons_of_pos _ h2
      rw [hfind]
      have h2' : isSubOf (clean_string book.title) (clean_string filename) =
          true := h2
      by_cases h1 : isSubOf (clean_string book.author) (clean_string parentDir)
      · simp [find_matching_audiobook, h2', h1]
      · simp [find_matching_audiobook, h2',
          Bool.eq_false_iff.mpr h1]
    · have hfind : titleOnlyResolve filename ((key, book) :: rest) =
          titleOnlyResolve filename rest := by
        refine List.find?_cons_of_neg _ ?_
        simpa using h2
      rw [hfind, ← ih]
      have h2' : isSubOf (clean_string book.title) (clean_string filename) =
          false := Bool.eq_false_iff.mpr h2
      simp [find_matching_audiobook, h2']

/-- C1: the resolver returns an entry only when at least one of the three
documented conditions holds for that entry's record (and the entry really
comes from the catalog); and when no record satisfies any condition it
returns no match. -/
theorem find_matching_sound (filename parentDir : List Char)
    (audiobooks : List (List Char × Book)) :
    (∀ entry, find_matching_audiobook filename parentDir audiobooks =
        some entry →
      entry ∈ audiobooks ∧ matchConds filename parentDir entry.2 = true) ∧
    ((∀ e ∈ audiobooks, matchConds filename parentDir e.2 = false) →
      find_matching_audiobook filename parentDir audiobooks = none) := by
  induction audiobooks with
  | nil =>
    refine ⟨fun entry h => by simp [find_matching_audiobook] at h,
      fun _ => rfl⟩
  | cons e rest ih =>
    obtain ⟨key, book⟩ := e
    constructor
    · intro entry h
      by_cases h2 : isSubOf (clean_string book.title) (clean_string filename)
      · have : find_matching_audiobook filename parentDir
            ((key, book) :: rest) = some (key, book) := by
          by_cases h1 : isSubOf (clean_string book.author)
              (clean_string parentDir)
          · simp [find_matching_audiobook, h2, h1]
          · simp [find_matching_audiobook, h2, Bool.eq_false_iff.mpr h1]
        rw [this] at h
        cases h
        refine ⟨List.mem_cons_self _ _, ?_⟩
        simp [matchConds, titleInFilename, h2]
      · have h2' : isSubOf (clean_string book.title) (clean_string filename) =
            false := Bool.eq_false_iff.mpr h2
        have : find_matching_audiobook filename parentDir
            ((key, book) :: rest) =
            find_matching_audiobook filename parentDir rest := by
          simp [find_matching_audiobook, h2']
        rw [this] at h
        obtain ⟨hmem, hcond⟩ := ih.1 entry h
        exact ⟨List.mem_cons_of_mem _ hmem, hcond⟩
    · intro hnone
      have hhead := hnone (key, book) (List.mem_cons_self _ _)
      have h2' : isSubOf (clean_string book.title) (clean_string filename) =
          false := by
        have hh := hhead
        simp only [matchConds, Bool.or_eq_false_iff] at hh
        simpa [titleInFilename] using hh.1.2
      have : find_matching_audiobook filename parentDir
          ((key, book) :: rest) =
          find_matching_audiobook filename parentDir rest := by
        simp [find_matching_audiobook, h2']
      rw [this]
      exact ih.2 fun e he => hnone e (List.mem_cons_of_mem _ he)

/-- Witness for C1 at the design's Hobbit scenario: the resolver finds the
record and the conditions indeed hold for it. -/
theorem find_matching_sound_witness :
    (("the hobbit".data,
        (⟨"The Hobbit".data, "J.R.R. Tolkien".data, "N".data, [], []⟩ : Book)) ∈
      [("the hobbit".data,
        (⟨"The Hobbit".data, "J.R.R. Tolkien".data, "N".data, [], []⟩ : Book))] ∧
      matchConds "01 - The Hobbit.mp3".data "J.R.R. Tolkien".data
        ⟨"The Hobbit".data, "J.R.R. Tolkien".data, "N".data, [], []⟩ = true) ∧
    find_matching_audiobook "x.mp3".data "y".data
      [("the hobbit".data,
        (⟨"The Hobbit".data, "J.R.R. Tolkien".data, "N".data, [], []⟩ : Book))] =
      none := by
  constructor
  · exact (find_matching_sound "01 - The Hobbit.mp3".data "J.R.R. Tolkien".data
      [("the hobbit".data,
        ⟨"The Hobbit".data, "J.R.R. Tolkien".data, "N".data, [], []⟩)]).1
      _ (by decide)
  · exact (find_matching_sound "x.mp3".data "y".data
      [("the hobbit".data,
        ⟨"The Hobbit".data, "J.R.R. Tolkien".data, "N".data, [], []⟩)]).2
      (by decide)

/-! ## Theorems: the catalog index (claim C9) -/

theorem buildIndex_foldl_no_match (rows : List CsvRow) :
    ∀ (m : List Char → Option Book) (k : List Char),
      (∀ r ∈ rows, clean_string r.colTitle ≠ k) →
      rows.foldl
        (fun m row => fun k' =>
          if k' = clean_string row.colTitle then some (mkBook row) else m k')
        m k = m k := by
  induction rows with
  | nil => intro m k _; rfl
  | cons r rest ih =>
    intro m k h
    rw [List.foldl_cons]
    rw [ih _ k fun r' hr' => h r' (List.mem_cons_of_mem _ hr')]
    have : ¬ k = clean_string r.colTitle :=
      fun hk => h r (List.mem_cons_self _ _) hk.symm
    simp [this]

/-- C9: when two rows share one cleaned title key, the index maps the key to
the record built from the later row — last write wins. -/
theorem buildIndex_last_wins (pre mid post : List CsvRow) (r1 r2 : CsvRow)
    (key : List Char)
    (_h1 : clean_string r1.colTitle = key)
    (h2 : clean_string r2.colTitle = key)
    (hpost : ∀ r ∈ post, clean_string r.colTitle ≠ key) :
    buildIndex (pre ++ r1 :: mid ++ r2 :: post) key = some (mkBook r2) := by
  have hsplit : pre ++ r1 :: mid ++ r2 :: post =
      (pre ++ r1 :: mid) ++ r2 :: post := by
    simp
  rw [hsplit]
  unfold buildIndex
  rw [List.foldl_append, List.foldl_cons]
  rw [buildIndex_foldl_no_match post _ key hpost]
  simp [h2]

/-- Witness for C9: a two-row catalog whose titles clean to the same key
retains the second row's record. -/
theorem buildIndex_last_wins_witness :
    buildIndex
      [⟨"The Hobbit".data, "A1".data, "N1".data, [], []⟩,
       ⟨"the hobbit".data, "A2".data, "N2".data, [], []⟩]
      "the hobbit".data =
      some (mkBook ⟨"the hobbit".data, "A2".data, "N2".data, [], []⟩) := by
  have := buildIndex_last_wins [] []
    [] ⟨"The Hobbit".data, "A1".data, "N1".data, [], []⟩
    ⟨"the hobbit".data, "A2".data, "N2".data, [], []⟩
    "the hobbit".data (by decide) (by decide) (by simp)
  simpa using this

/-! ## Theorems: the fields written by process_audiobooks (claim C4) -/

/-- Counterexample to C4 as stated: with an empty (unknown) narrator the
code still sets the album-artist field — the assignment is unconditional,
so "only when the narrator is known" is false. -/
theorem update_basic_metadata_narrator_counterexample :
    ¬ (update_basic_metadata
        ⟨"T".data, "A".data, [], [], []⟩ emptyTags "albumartist" = none) := by
  decide

/-- C4 (amended): the written fields are title, artist = author,
album = title or "series - title" when the series is non-empty,
genre = Audiobook, media type = Audiobook, compilation flag = 1, and —
unconditionally, whatever the narrator value — album-artist and
composer = narrator. -/
theorem update_basic_metadata_fields (book : Book) (audio : EasyTags) :
    update_basic_metadata book audio "title" = some book.title ∧
    update_basic_metadata book audio "artist" = some book.author ∧
    update_basic_metadata book audio "albumartist" = some book.narrator ∧
    update_basic_metadata book audio "album" =
      some (if book.series = [] then book.title
        else book.series ++ " - ".data ++ book.title) ∧
    update_basic_metadata book audio "genre" = some "Audiobook".data ∧
    update_basic_metadata book audio "composer" = some book.narrator ∧
    update_basic_metadata book audio "TMED" = some "Audiobook".data ∧
    update_basic_metadata book audio "TCMP" = some "1".data := by
  by_cases hs : book.series = []
  · refine ⟨?_, ?_, ?_, ?_, ?_, ?_, ?_, ?_⟩ <;>
      simp [update_basic_metadata, setField, hs]
  · refine ⟨?_, ?_, ?_, ?_, ?_, ?_, ?_, ?_⟩ <;>
      simp [update_basic_metadata, setField, hs]

/-! ## Theorems: clean_string / StringNormalizer (claim C5) -/

/-- Counterexample to C5 as stated: the documented example fails, because
punctuation is deleted rather than replaced by spaces — cleaning
"J.R.R. Tolkien" yields "jrr tolkien", not "j r r tolkien". -/
theorem clean_string_example_counterexample :
    clean_string "J.R.R. Tolkien".data ≠ clean_string "j r r tolkien".data := by
  decide

/-- C5 (amended): `clean_string` is idempotent; a missing or empty input
cleans to the empty string; cleaning is case-insensitive (lowercasing the
input first changes nothing); and the punctuation-stripped example is
"jrr tolkien", with the periods deleted outright. -/
theorem clean_string_props :
    (∀ s : List Char, clean_string (clean_string s) = clean_string s) ∧
    clean_string_opt none = [] ∧
    clean_string [] = [] ∧
    (∀ s : List Char, clean_string (s.map lowerChar) = clean_string s) ∧
    clean_string "J.R.R. Tolkien".data = clean_string "jrr tolkien".data := by
  refine ⟨clean_string_idem, rfl, rfl, ?_, by decide⟩
  intro s
  have hmaps : (s.map lowerChar).map lowerChar = s.map lowerChar := by
    rw [List.map_map]
    have : lowerChar ∘ lowerChar = lowerChar := funext lowerChar_idem
    rw [this]
  cases s with
  | nil => rfl
  | cons c cs =>
    show clean_string (lowerChar c :: cs.map lowerChar) = clean_string (c :: cs)
    rw [clean_string, clean_string]
    have h1 : ((lowerChar c :: cs.map lowerChar) : List Char).isEmpty = false :=
      rfl
    have h2 : ((c :: cs) : List Char).isEmpty = false := rfl
    rw [h1, h2]
    simp only [Bool.false_eq_true, if_false]
    have : (lowerChar c :: cs.map lowerChar : List Char).map lowerChar =
        (c :: cs : List Char).map lowerChar := by
      simpa using hmaps
    rw [this]

/-! ## Theorems: author variants and folder pruning (claim C6) -/

theorem load_authors_inner_mono :
    ∀ (pieces : List (List Char)) (acc2 : List (List Char)) (x : List Char),
      x ∈ acc2 →
      x ∈ pieces.foldl
        (fun acc2 a =>
          let c := pyStrip a
          if c = [] then acc2 else acc2 ++ authorVariants c)
        acc2 := by
  intro pieces
  induction pieces with
  | nil => intro acc2 x hx; exact hx
  | cons a rest ih =>
    intro acc2 x hx
    rw [List.foldl_cons]
    apply ih
    by_cases hc : pyStrip a = []
    · simpa [hc] using hx
    · simp only [hc, if_neg hc]
      exact List.mem_append_left _ hx

theorem load_authors_inner_adds :
    ∀ (pieces : List (List Char)) (acc2 : List (List Char)) (a : List Char),
      a ∈ pieces → pyStrip a ≠ [] →
      ∀ v ∈ authorVariants (pyStrip a),
        v ∈ pieces.foldl
          (fun acc2 a =>
            let c := pyStrip a
            if c = [] then acc2 else acc2 ++ authorVariants c)
          acc2 := by
  intro pieces
  induction pieces with
  | nil => intro acc2 a ha; simp at ha
  | cons b rest ih =>
    intro acc2 a ha hne v hv
    rw [List.foldl_cons]
    rcases List.mem_cons.mp ha with ha | ha
    · subst ha
      apply load_authors_inner_mono
      simp only [if_neg hne]
      exact List.mem_append_right _ hv
    · exact ih _ a ha hne v hv

theorem load_authors_outer_mono :
    ∀ (rows : List (List Char)) (acc : List (List Char)) (x : List Char),
      x ∈ acc →
      x ∈ rows.foldl
        (fun acc row =>
          (splitComma row).foldl
            (fun acc2 a =>
              let c := pyStrip a
              if c = [] then acc2 else acc2 ++ authorVariants c)
            acc)
        acc := by
  intro rows
  induction rows with
  | nil => intro acc x hx; exact hx
  | cons row rest ih =>
    intro acc x hx
    rw [List.foldl_cons]
    exact ih _ x (load_authors_inner_mono _ acc x hx)

theorem load_authors_outer_adds :
    ∀ (rows : List (List Char)) (acc : List (List Char)) (row a : List Char),
      row ∈ rows → a ∈ splitComma row → pyStrip a ≠ [] →
      ∀ v ∈ authorVariants (pyStrip a),
        v ∈ rows.foldl
          (fun acc row =>
            (splitComma row).foldl
              (fun acc2 a =>
                let c := pyStrip a
                if c = [] then acc2 else acc2 ++ authorVariants c)
              acc)
          acc := by
  intro rows
  induction rows with
  | nil => intro acc row a hrow; simp at hrow
  | cons r rest ih =>
    intro acc row a hrow ha hne v hv
    rw [List.foldl_cons]
    rcases List.mem_cons.mp hrow with hr | hr
    · subst hr
      exact load_authors_outer_mono rest _ v
        (load_authors_inner_adds _ _ a ha hne v hv)
    · exact ih _ row a hr ha hne v hv

/-- C6: (a) for every Authors field of the catalog and every comma-separated
name in it with a non-empty trim, all four variants of the trimmed name are
members of the loaded author set; (b) a folder is selected for pruning
exactly when one of its five variations is a member of the set — exact
membership, never substring; and (c) the design's scenario: from the row
"Jane Doe", the folders "Jane Doe" and "jane doe" are pruned while
"Jane Doeson" is not. -/
theorem author_variant_pruning :
    (∀ (rows : List (List Char)) (row : List Char) (a : List Char),
      row ∈ rows → a ∈ splitComma row → pyStrip a ≠ [] →
      ∀ v ∈ authorVariants (pyStrip a), v ∈ load_authors rows) ∧
    (∀ (authors : List (List Char)) (folderName : List Char),
      should_remove_folder authors folderName = true ↔
        ∃ v ∈ folderVariations folderName, v ∈ authors) ∧
    (should_remove_folder (load_authors ["Jane Doe".data]) "Jane Doe".data
        = true ∧
      should_remove_folder (load_authors ["Jane Doe".data]) "jane doe".data
        = true ∧
      should_remove_folder (load_authors ["Jane Doe".data]) "Jane Doeson".data
        = false) := by
  refine ⟨?_, ?_, by decide, by decide, by decide⟩
  · intro rows row a hrow ha hne v hv
    unfold load_authors
    exact load_authors_outer_adds rows [] row a hrow ha hne v hv
  · intro authors folderName
    unfold should_remove_folder
    rw [List.any_eq_true]
    constructor
    · rintro ⟨v, hvm, hvc⟩
      exact ⟨v, hvm, List.elem_iff.mp hvc⟩
    · rintro ⟨v, hvm, hvc⟩
      exact ⟨v, hvm, List.elem_iff.mpr hvc⟩

/-- Witness for C6 at the "Jane Doe" scenario: all four variants of the
name are in the loaded set, and the pruning test agrees with exact
membership of some variation. -/
theorem author_variant_pruning_witness :
    (∀ v ∈ authorVariants (pyStrip "Jane Doe".data),
      v ∈ load_authors ["Jane Doe".data]) ∧
    (should_remove_folder ["jane doe".data] "Jane Doe".data = true ↔
      ∃ v ∈ folderVariations "Jane Doe".data, v ∈ ["jane doe".data]) := by
  constructor
  · exact author_variant_pruning.1 ["Jane Doe".data] "Jane Doe".data
      "Jane Doe".data (by decide) (by decide) (by decide)
  · exact author_variant_pruning.2.1 ["jane doe".data] "Jane Doe".data

/-! ## Theorems: the prune engine (claims C7 and C8) -/

theorem remove_folders_eq (fail : List Char → Bool) (dryRun : Bool) :
    ∀ (folders : List (List Char)) (st : PruneState),
      remove_folders fail dryRun folders st =
        (⟨st.removed ++
            (if dryRun then folders else folders.filter (fun f => !fail f)),
          st.skipped ++ (if dryRun then [] else folders.filter fail)⟩,
         if dryRun then [] else folders.filter (fun f => !fail f)) := by
  intro folders
  induction folders with
  | nil => intro st; simp [remove_folders]
  | cons f rest ih =>
    intro st
    by_cases hdry : dryRun
    · subst hdry
      rw [remove_folders, if_pos rfl, ih]
      simp
    · have hd : dryRun = false := Bool.eq_false_iff.mpr hdry
      subst hd
      by_cases hf : fail f
      · rw [remove_folders, if_neg (by simp), if_pos hf, ih]
        simp [List.filter_cons, hf]
      · have hf' : fail f = false := Bool.eq_false_iff.mpr hf
        rw [remove_folders, if_neg (by simp), if_neg hf, ih]
        simp [List.filter_cons, hf']

/-- C7: after confirmation the destructive phase, run over the same
candidate list and with deletions succeeding on an unchanged filesystem,
deletes exactly the folders the dry run listed, and its bookkeeping starts
from reset lists — the destructive-phase report holds exactly the
candidates as removed and nothing as skipped, free of dry-run entries. -/
theorem prune_two_phase (authors : List (List Char))
    (musicDirs : List (List Char)) (fail : List Char → Bool)
    (h : ∀ d, fail d = false) :
    pruneMain authors musicDirs fail true =
      ((⟨musicDirs.filter (fun d => should_remove_folder authors d), []⟩ :
          PruneState),
        some
          (⟨musicDirs.filter (fun d => should_remove_folder authors d), []⟩,
            musicDirs.filter (fun d => should_remove_folder authors d))) := by
  have hall : (musicDirs.filter (fun d => should_remove_folder authors d)).filter
      (fun f => !fail f) =
      musicDirs.filter (fun d => should_remove_folder authors d) :=
    List.filter_eq_self.mpr fun a _ => by simp [h a]
  have hnone : (musicDirs.filter (fun d => should_remove_folder authors d)).filter
      fail = [] :=
    List.filter_eq_nil_iff.mpr fun a _ => by simp [h a]
  simp [pruneMain, remove_folders_eq, hall, hnone]

/-- Witness for C7: one candidate folder, no failing deletions. -/
theorem prune_two_phase_witness :
    pruneMain ["jane doe".data] ["jane doe".data, "Keep Me".data]
      (fun _ => false) true =
      (⟨["jane doe".data], []⟩,
        some (⟨["jane doe".data], []⟩, ["jane doe".data])) := by
  have := prune_two_phase ["jane doe".data] ["jane doe".data, "Keep Me".data]
    (fun _ => false) (fun _ => rfl)
  rw [this]
  decide

theorem filter_split_length (p : List Char → Bool) :
    ∀ l : List (List Char),
      (l.filter (fun f => !p f)).length + (l.filter p).length = l.length := by
  intro l
  induction l with
  | nil => rfl
  | cons f rest ih =>
    by_cases hf : p f
    · simp only [List.filter_cons, hf, Bool.not_true, if_pos, List.length_cons]
      simp only [Bool.false_eq_true, if_false]
      omega
    · have hf' : p f = false := Bool.eq_false_iff.mpr hf
      simp only [List.filter_cons, hf', Bool.not_false, List.length_cons]
      simp only [Bool.false_eq_true, if_false, if_pos, List.length_cons]
      omega

/-- C8: per-item error containment.  In the walker, every file whose
processing raises ends up in the skipped list, every file lands in exactly
one of the two report lists, and the whole batch is always traversed; in
the prune engine, every candidate whose deletion fails is recorded as
skipped and every candidate is accounted for. -/
theorem per_item_error_containment {α : Type} (outcome : α → FileOutcome)
    (files : List α) (fail : List Char → Bool)
    (folders : List (List Char)) :
    (∀ f ∈ files, outcome f = FileOutcome.failure →
      f ∈ (processFiles outcome files).2) ∧
    (processFiles outcome files).1.length +
      (processFiles outcome files).2.length = files.length ∧
    (∀ f ∈ files,
      f ∈ (processFiles outcome files).1 ∨ f ∈ (processFiles outcome files).2) ∧
    (∀ f ∈ folders, fail f = true →
      f ∈ (remove_folders fail false folders ⟨[], []⟩).1.skipped) ∧
    (remove_folders fail false folders ⟨[], []⟩).1.removed.length +
      (remove_folders fail false folders ⟨[], []⟩).1.skipped.length =
      folders.length := by
  refine ⟨?_, ?_, ?_, ?_, ?_⟩
  · intro f hf hout
    induction files with
    | nil => simp at hf
    | cons g rest ih =>
      rcases List.mem_cons.mp hf with hg | hg
      · subst hg
        simp only [processFiles, hout]
        exact List.mem_cons_self _ _
      · have htail := ih hg
        simp only [processFiles]
        rcases hc : outcome g with _ | _ | _ <;> simp_all
  · induction files with
    | nil => rfl
    | cons g rest ih =>
      simp only [processFiles]
      rcases hc : outcome g with _ | _ | _ <;> simp [ih] <;> omega
  · intro f hf
    induction files with
    | nil => simp at hf
    | cons g rest ih =>
      rcases List.mem_cons.mp hf with hg | hg
      · subst hg
        simp only [processFiles]
        rcases hc : outcome f with _ | _ | _
        · exact Or.inl (List.mem_cons_self _ _)
        · exact Or.inr (List.mem_cons_self _ _)
        · exact Or.inr (List.mem_cons_self _ _)
      · have := ih hg
        simp only [processFiles]
        rcases hc : outcome g with _ | _ | _ <;>
          rcases this with h | h <;>
            simp [h]
  · intro f hf hfail
    rw [remove_folders_eq]
    simp only [Bool.false_eq_true, if_false, List.nil_append]
    exact List.mem_filter.mpr ⟨hf, hfail⟩
  · rw [remove_folders_eq]
    simpa using filter_split_length fail folders

/-- Witness for C8: a two-file batch with one failure and a two-folder
prune with one failing deletion. -/
theorem per_item_error_containment_witness :
    ("bad.mp3".data ∈
      (processFiles
        (fun f => if f = "bad.mp3".data then FileOutcome.failure
          else FileOutcome.success)
        ["good.mp3".data, "bad.mp3".data]).2) ∧
    ("d1".data ∈
      (remove_folders (fun f => f = "d1".data) false
        ["d1".data, "d2".data] ⟨[], []⟩).1.skipped) := by
  constructor
  · exact (per_item_error_containment
      (fun f => if f = "bad.mp3".data then FileOutcome.failure
        else FileOutcome.success)
      ["good.mp3".data, "bad.mp3".data]
      (fun f => f = "d1".data) ["d1".data, "d2".data]).1
      "bad.mp3".data (by decide) (by decide)
  · exact (per_item_error_containment
      (fun f => if f = "bad.mp3".data then FileOutcome.failure
        else FileOutcome.success)
      ["good.mp3".data, "bad.mp3".data]
      (fun f => f = "d1".data) ["d1".data, "d2".data]).2.2.2.1
      "d1".data (by decide) (by decide)

/-! ## Theorems: tag fusion (claim C2) -/

theorem addFrame_append (tags : List Frame) (fr : Frame)
    (h : ∀ g ∈ tags, (g.key == fr.key) = false) :
    addFrame tags fr = tags ++ [fr] := by
  have hany : tags.any (fun g => g.key == fr.key) = false :=
    List.any_eq_false.mpr fun g hg => by simp [h g hg]
  simp [addFrame, hany]

theorem chap_ne_key {k k' : List Char} (hk : chapOrToc k = true)
    (hk' : chapOrToc k' = false) : (k == k') = false :=
  beq_eq_false_iff_ne.mpr fun he => by rw [he, hk'] at hk; cases hk

theorem chap_foldl :
    ∀ (l : List Frame) (acc : List Frame),
      (l.map Frame.key).Nodup →
      (∀ g ∈ acc, ∀ fr ∈ l, g.key ≠ fr.key) →
      l.foldl (fun acc fr => if chapOrToc fr.key then addFrame acc fr else acc)
        acc = acc ++ l.filter (fun fr => chapOrToc fr.key) := by
  intro l
  induction l with
  | nil => intro acc _ _; simp
  | cons fr rest ih =>
    intro acc hnd hdisj
    have hnd' : fr.key ∉ rest.map Frame.key ∧ (rest.map Frame.key).Nodup := by
      rw [List.map_cons, List.nodup_cons] at hnd
      exact hnd
    rw [List.foldl_cons]
    by_cases hc : chapOrToc fr.key
    · rw [if_pos hc,
        addFrame_append acc fr fun g hg =>
          beq_eq_false_iff_ne.mpr (hdisj g hg fr (List.mem_cons_self _ _))]
      rw [ih (acc ++ [fr]) hnd'.2 ?_]
      · simp [List.filter_cons, hc]
      · intro g hg fr' hfr'
        rcases List.mem_append.mp hg with hg | hg
        · exact hdisj g hg fr' (List.mem_cons_of_mem _ hfr')
        · have : g = fr := by simpa using hg
          subst this
          intro hkey
          exact hnd'.1 (hkey ▸ List.mem_map_of_mem Frame.key hfr')
    · rw [if_neg hc, ih acc hnd'.2
        fun g hg fr' hfr' => hdisj g hg fr' (List.mem_cons_of_mem _ hfr')]
      have hc' : chapOrToc fr.key = false := Bool.eq_false_iff.mpr hc
      simp [List.filter_cons, hc']

theorem addFrames_chain :
    ∀ (ns : List Frame) (cur : List Frame),
      (∀ fr ∈ ns, ∀ g ∈ cur, (g.key == fr.key) = false) →
      (ns.map Frame.key).Nodup →
      ns.foldl addFrame cur = cur ++ ns := by
  intro ns
  induction ns with
  | nil => intro cur _ _; simp
  | cons fr rest ih =>
    intro cur hcond hnd
    have hnd' : fr.key ∉ rest.map Frame.key ∧ (rest.map Frame.key).Nodup := by
      rw [List.map_cons, List.nodup_cons] at hnd
      exact hnd
    rw [List.foldl_cons,
      addFrame_append cur fr fun g hg => hcond fr (List.mem_cons_self _ _) g hg,
      ih (cur ++ [fr]) ?_ hnd'.2]
    · simp
    · intro fr' hfr' g hg
      rcases List.mem_append.mp hg with hg | hg
      · exact hcond fr' (List.mem_cons_of_mem _ hfr') g hg
      · have : g = fr := by simpa using hg
        subst this
        refine beq_eq_false_iff_ne.mpr fun hkey => ?_
        exact hnd'.1 (hkey ▸ List.mem_map_of_mem Frame.key hfr')

/-- C2: on a container with distinct frame keys (as ID3 dictionaries have),
the rewritten container is exactly the chapter-marker and
table-of-contents frames of the input, kept verbatim and in order, followed
by the six newly written frames; every other existing frame is discarded. -/
theorem tag_fusion_preserves_chapters (existing : List Frame)
    (hnd : (existing.map Frame.key).Nodup) :
    update_audiobook_metadata existing =
      existing.filter (fun fr => chapOrToc fr.key) ++ newFrames existing := by
  have hstep : update_audiobook_metadata existing =
      (newFrames existing).foldl addFrame
        (existing.foldl
          (fun acc fr => if chapOrToc fr.key then addFrame acc fr else acc)
          []) := rfl
  have hkeys : (newFrames existing).map Frame.key =
      ["TIT2".data, "TPE1".data, "TALB".data, "TCON".data, "TMED".data,
        "TCMP".data] := rfl
  have hnd6 : ((newFrames existing).map Frame.key).Nodup := by
    rw [hkeys]
    decide
  have hnew : ∀ fr ∈ newFrames existing, chapOrToc fr.key = false := by
    intro fr hfr
    have hk : fr.key ∈ (["TIT2".data, "TPE1".data, "TALB".data, "TCON".data,
        "TMED".data, "TCMP".data] : List (List Char)) :=
      hkeys ▸ List.mem_map_of_mem Frame.key hfr
    simp only [List.mem_cons, List.not_mem_nil, or_false] at hk
    rcases hk with h | h | h | h | h | h <;> rw [h] <;> decide
  rw [hstep,
    chap_foldl existing [] hnd (by intro g hg; simp at hg),
    addFrames_chain (newFrames existing) _ ?_ hnd6]
  · simp
  · intro fr hfr g hg
    have hgf : g ∈ existing.filter (fun fr => chapOrToc fr.key) := by
      simpa using hg
    have hgk : chapOrToc g.key = true := (List.mem_filter.mp hgf).2
    exact chap_ne_key hgk (hnew fr hfr)

/-- Witness for C2: a container holding a chapter frame, a TOC frame, a
title frame and a stray comment frame keeps exactly the chapter and TOC
frames and discards the rest. -/
theorem tag_fusion_preserves_chapters_witness :
    update_audiobook_metadata
      [⟨"CHAP0".data, "c0".data⟩, ⟨"TIT2".data, "My Book".data⟩,
       ⟨"CTOC".data, "toc".data⟩, ⟨"COMM".data, "junk".data⟩] =
      [⟨"CHAP0".data, "c0".data⟩, ⟨"CTOC".data, "toc".data⟩] ++
        newFrames
          [⟨"CHAP0".data, "c0".data⟩, ⟨"TIT2".data, "My Book".data⟩,
           ⟨"CTOC".data, "toc".data⟩, ⟨"COMM".data, "junk".data⟩] := by
  have := tag_fusion_preserves_chapters
    [⟨"CHAP0".data, "c0".data⟩, ⟨"TIT2".data, "My Book".data⟩,
     ⟨"CTOC".data, "toc".data⟩, ⟨"COMM".data, "junk".data⟩] (by decide)
  rw [this]
  decide

/-! ## Theorems: collision-safe path planning (claim C3) -/

theorem digitChar_inj_lt : ∀ a < 10, ∀ b < 10,
    Nat.digitChar a = Nat.digitChar b → a = b := by
  decide

theorem map_digitChar_inj :
    ∀ (l1 l2 : List Nat), (∀ x ∈ l1, x < 10) → (∀ x ∈ l2, x < 10) →
      l1.map Nat.digitChar = l2.map Nat.digitChar → l1 = l2 := by
  intro l1
  induction l1 with
  | nil =>
    intro l2 _ _ h
    cases l2 with
    | nil => rfl
    | cons b bs => simp at h
  | cons a as ih =>
    intro l2 h1 h2 h
    cases l2 with
    | nil => simp at h
    | cons b bs =>
      simp only [List.map_cons, List.cons.injEq] at h
      have ha : a = b :=
        digitChar_inj_lt a (h1 a (List.mem_cons_self _ _))
          b (h2 b (List.mem_cons_self _ _)) h.1
      rw [ha, ih bs (fun x hx => h1 x (List.mem_cons_of_mem _ hx))
        (fun x hx => h2 x (List.mem_cons_of_mem _ hx)) h.2]

theorem digits_bounded (n : Nat) :
    ∀ x ∈ (Nat.digits 10 n).reverse, x < 10 := fun x hx =>
  Nat.digits_lt_base (by norm_num) (List.mem_reverse.mp hx)

theorem natChars_inj {m n : Nat} (h : natChars m = natChars n) : m = n := by
  unfold natChars at h
  by_cases hm : m = 0 <;> by_cases hn : n = 0
  · rw [hm, hn]
  · exfalso
    rw [if_pos hm, if_neg hn] at h
    have h0 : ([0] : List Nat).map Nat.digitChar =
        (Nat.digits 10 n).reverse.map Nat.digitChar := h
    have h1 : ([0] : List Nat) = (Nat.digits 10 n).reverse :=
      map_digitChar_inj [0] _ (by decide) (digits_bounded n) h0
    have h2 : Nat.digits 10 n = [0] := by
      have := congrArg List.reverse h1
      simpa using this.symm
    have h3 : n = 0 := by
      have := Nat.ofDigits_digits 10 n
      rw [h2] at this
      simpa [Nat.ofDigits] using this.symm
    exact hn h3
  · exfalso
    rw [if_neg hm, if_pos hn] at h
    have h0 : ([0] : List Nat).map Nat.digitChar =
        (Nat.digits 10 m).reverse.map Nat.digitChar := h.symm
    have h1 : ([0] : List Nat) = (Nat.digits 10 m).reverse :=
      map_digitChar_inj [0] _ (by decide) (digits_bounded m) h0
    have h2 : Nat.digits 10 m = [0] := by
      have := congrArg List.reverse h1
      simpa using this.symm
    have h3 : m = 0 := by
      have := Nat.ofDigits_digits 10 m
      rw [h2] at this
      simpa [Nat.ofDigits] using this.symm
    exact hm h3
  · rw [if_neg hm, if_neg hn] at h
    have h1 : (Nat.digits 10 m).reverse = (Nat.digits 10 n).reverse :=
      map_digitChar_inj _ _ (digits_bounded m) (digits_bounded n) h
    have h2 : Nat.digits 10 m = Nat.digits 10 n := by
      have := congrArg List.reverse h1
      simpa using this
    have := congrArg (Nat.ofDigits 10) h2
    rwa [Nat.ofDigits_digits, Nat.ofDigits_digits] at this

theorem candName_inj (base ext : List Char) {a b : Nat}
    (h : candName base ext a = candName base ext b) : a = b := by
  unfold candName at h
  have h1 := List.append_cancel_left h
  injection h1 with _ h2
  exact natChars_inj (List.append_cancel_right h2)

theorem findFree_avoids (existing : List (List Char)) (base ext : List Char) :
    ∀ (fuel c : Nat),
      ((Finset.Ico c (c + fuel)).filter
        (fun n => candName base ext n ∈ existing)).card < fuel →
      findFree existing base ext fuel c ∉ existing := by
  intro fuel
  induction fuel with
  | zero => intro c h; exact absurd h (Nat.not_lt_zero _)
  | succ fuel ih =>
    intro c hcard
    by_cases hc : candName base ext c ∈ existing
    · rw [findFree, if_pos hc]
      apply ih (c + 1)
      have hmem : c ∈ (Finset.Ico c (c + (fuel + 1))).filter
          (fun n => candName base ext n ∈ existing) :=
        Finset.mem_filter.mpr ⟨Finset.mem_Ico.mpr ⟨le_rfl, by omega⟩, hc⟩
      have hico : c + 1 + fuel = c + (fuel + 1) := by omega
      have heq : Finset.Ico (c + 1) (c + 1 + fuel) =
          (Finset.Ico c (c + (fuel + 1))).erase c := by
        rw [hico]
        exact Nat.Ico_succ_left_eq_erase_Ico
      rw [heq, Finset.filter_erase, Finset.card_erase_of_mem hmem]
      have hpos : 0 < ((Finset.Ico c (c + (fuel + 1))).filter
          (fun n => candName base ext n ∈ existing)).card :=
        Finset.card_pos.mpr ⟨c, hmem⟩
      omega
    · rw [findFree, if_neg hc]
      exact hc

theorem organizePlan_not_mem (existing : List (List Char))
    (base ext : List Char) : organizePlan existing base ext ∉ existing := by
  unfold organizePlan
  by_cases h0 : base ++ ext ∈ existing
  · rw [if_pos h0]
    apply findFree_avoids
    have hsub : ∀ n ∈ (Finset.Ico 1 (1 + (existing.length + 1))).filter
        (fun n => candName base ext n ∈ existing),
        candName base ext n ∈ existing.toFinset := fun n hn =>
      List.mem_toFinset.mpr (Finset.mem_filter.mp hn).2
    have hinj : Set.InjOn (fun n => candName base ext n)
        ((Finset.Ico 1 (1 + (existing.length + 1))).filter
          (fun n => candName base ext n ∈ existing) : Finset Nat) :=
      fun a _ b _ hab => candName_inj base ext hab
    have hle := Finset.card_le_card_of_injOn _ hsub hinj
    have h2 : existing.toFinset.card ≤ existing.length :=
      existing.toFinset_card_le
    omega
  · rw [if_neg h0]
    exact h0

/-- C3: copying any number of identically named source files into one
destination directory yields pairwise distinct destination names, none of
which collides with a file already present — no copy ever overwrites. -/
theorem path_planner_no_overwrite (base ext : List Char) :
    ∀ (n : Nat) (existing : List (List Char)),
      (placeCopies base ext existing n).length = n ∧
      (placeCopies base ext existing n).Nodup ∧
      ∀ p ∈ placeCopies base ext existing n, p ∉ existing := by
  intro n
  induction n with
  | zero =>
    intro existing
    refine ⟨rfl, List.nodup_nil, ?_⟩
    intro p hp
    simp [placeCopies] at hp
  | succ n ih =>
    intro existing
    obtain ⟨hlen, hnd, hdisj⟩ := ih (organizePlan existing base ext :: existing)
    refine ⟨by simp [placeCopies, hlen], ?_, ?_⟩
    · rw [placeCopies, List.nodup_cons]
      exact ⟨fun hmem => hdisj _ hmem (List.mem_cons_self _ _), hnd⟩
    · intro p hp
      rw [placeCopies] at hp
      rcases List.mem_cons.mp hp with h | h
      · subst h
        exact organizePlan_not_mem existing base ext
      · exact fun hmem => hdisj p h (List.mem_cons_of_mem _ hmem)

/-- Witness for C3: three copies of "book.mp3" into a directory already
holding "book.mp3" produce three distinct new names, none of them already
present. -/
theorem path_planner_no_overwrite_witness :
    (placeCopies "book".data ".mp3".data ["book.mp3".data] 3).length = 3 ∧
    (placeCopies "book".data ".mp3".data ["book.mp3".data] 3).Nodup ∧
    ∀ p ∈ placeCopies "book".data ".mp3".data ["book.mp3".data] 3,
      p ∉ (["book.mp3".data] : List (List Char)) :=
  path_planner_no_overwrite "book".data ".mp3".data 3 ["book.mp3".data]

end LibRec
